import Mathlib

/-!
# Busting Bias Game: session state machine

A shallow embedding of `src/game.js`.  The closure variables `stimuli`,
`currentIndex`, `score` and `responses` become fields of `State`, together
with the parts of the browser the handlers write to: the `gameData` entry of
`localStorage`, the DOM nodes the handlers assign, and the number of
`setTimeout(..., 600)` callbacks that are scheduled and have not run yet.
Every handler is a function `State → State`.

CSS animation classes, the 400 ms shake timer and audio playback never touch
the session variables and are left out.
-/

namespace BustingBias

/-! ## Data model -/

/-- The two answers the input handlers pass on: the strings `left` and `right`. -/
inductive Category where
  | left
  | right
deriving DecidableEq, Repr

/-- An element of `originalStimuli`: `{ word, correct }`. -/
structure Stimulus where
  word : String
  correct : Category
deriving DecidableEq, Repr

/-- The object handed to `saveResponse`: `{ word, choice, isCorrect }`. -/
structure Response where
  word : String
  choice : Category
  isCorrect : Bool
deriving DecidableEq, Repr

/-- The constant `originalStimuli` of the source. -/
def originalStimuli : List Stimulus :=
  [⟨"Apple", .left⟩, ⟨"Banana", .right⟩, ⟨"Dog", .right⟩, ⟨"Car", .left⟩]

/-- What `scoreDisplay.textContent` holds: the template `Score: s` or the
template `Final Score: s / total`. -/
inductive ScoreText where
  | running (score : Nat)
  | final (score total : Nat)
deriving DecidableEq, Repr

/-- What `stimulus.textContent` holds: a stimulus word or the game-over banner. -/
inductive StimulusText where
  | word (w : String)
  | gameOver
deriving DecidableEq, Repr

/-- The DOM nodes written by the handlers. -/
structure Dom where
  /-- Content of `stimulus.textContent`. -/
  stimulusText : StimulusText
  /-- Content of `feedback.textContent` and `feedback.className`: `some true` is the check mark. -/
  feedbackMark : Option Bool
  /-- Whether `feedback.style.display` is `block`. -/
  feedbackShown : Bool
  /-- Content of `scoreDisplay.textContent`. -/
  scoreText : ScoreText
  /-- Value of `leftButton.disabled`. -/
  leftDisabled : Bool
  /-- Value of `rightButton.disabled`. -/
  rightDisabled : Bool
  /-- Whether `restartButton.style.display` is `inline-block`. -/
  restartShown : Bool
  /-- Content of `gameOverMsg.textContent`: the pair in `You scored s out of total!`. -/
  gameOverMsg : Option (Nat × Nat)
  /-- Whether `gameOverMsg.style.display` is `block`. -/
  gameOverShown : Bool
deriving DecidableEq, Repr

/-- The mutable variables of the page. -/
structure State where
  /-- The variable `stimuli`: the randomized word order. -/
  stimuli : List Stimulus
  /-- The variable `currentIndex`. -/
  currentIndex : Nat
  /-- The variable `score`. -/
  score : Nat
  /-- The variable `responses`. -/
  responses : List Response
  /-- The `gameData` entry of `localStorage`, when one has been written. -/
  gameData : Option (List Response)
  /-- Number of 600 ms callbacks of `showFeedback` scheduled and not yet run. -/
  pendingAdvance : Nat
  /-- The DOM nodes. -/
  dom : Dom
deriving DecidableEq, Repr

/-! ## The shuffle

`shuffleArray` calls `Array.prototype.sort` with a comparator that ignores
its arguments and returns `Math.random() - 0.5`.  The sort belongs to the
JavaScript engine, not to the repository.  It is embedded as the engine's own
algorithm, the TimSort of V8 (`third_party/v8/builtins/array-sort.tq`, the
engine of Node and of Chromium): `CountAndMakeRun`, `BinaryInsertionSort`, the
stack of pending runs with `MergeCollapse` and `MergeForceCollapse`, and
`MergeAt` with `GallopLeft`, `GallopRight`, `MergeLow` and `MergeHigh`.  An array
of fewer than 64 elements, such as the four seeds, is a single run: the run
found at its front, extended by binary insertion.

The comparator is not a function of its arguments, so its answers are supplied
from outside: the result of the `k`-th comparator call is `rnd k`, of which
the sort reads only whether it is negative, and every statement about the
shuffle quantifies over all `rnd`.  Since no decision depends on the elements,
the work array is held as lists: a run is the list of its elements, `take`
and `drop` stand for the index arithmetic, and each function returns the
comparator call count with its result.  Each loop recurses on a bound at least
as large as the number of rounds it can make (the length of the range it works
on), and returns what it holds should the bound be used up, so that no element
is lost on any path. -/

/-- The macro `ComputeMinRunLength`: `n` halved while it is 64 or more, plus 1
if a 1 bit was shifted off. -/
def computeMinRunLength : Nat → Nat → Nat → Nat
  | 0, n, r => n + r
  | fuel + 1, n, r =>
    if n ≥ 64 then computeMinRunLength fuel (n / 2) (max r (n % 2)) else n + r

/-- The loop of `CountAndMakeRun`: one comparator call per further element,
until the answer breaks the direction of the run.  Returns the run length and
the comparator call count. -/
def extendRun (rnd : Nat → Int) (isDescending : Bool) : Nat → Nat → Nat → Nat × Nat
  | 0, runLength, k => (runLength, k)
  | todo + 1, runLength, k =>
    if isDescending = decide (rnd k < 0) then
      extendRun rnd isDescending todo (runLength + 1) (k + 1)
    else
      (runLength, k + 1)

/-- The macro `CountAndMakeRun` on the unsorted rest of the array: the length
of the run at its front, with a descending run reversed in place. -/
def countAndMakeRun {α : Type} (rnd : Nat → Int) (rest : List α) (k : Nat) :
    List α × Nat × Nat :=
  if rest.length ≤ 1 then (rest, rest.length, k)
  else
    let isDescending := decide (rnd k < 0)
    let r := extendRun rnd isDescending (rest.length - 2) 2 (k + 1)
    if isDescending then
      ((rest.take r.1).reverse ++ rest.drop r.1, r.1, r.2)
    else
      (rest, r.1, r.2)

/-- The binary search of `BinaryInsertionSort`: `order = comparefn(pivot, a[mid])`,
`right = mid` when `order < 0`, else `left = mid + 1`. -/
def findInsertionPoint (rnd : Nat → Int) : Nat → Nat → Nat → Nat → Nat × Nat
  | 0, left, _, k => (left, k)
  | fuel + 1, left, right, k =>
    if left < right then
      if rnd k < 0 then
        findInsertionPoint rnd fuel left (left + (right - left) / 2) (k + 1)
      else
        findInsertionPoint rnd fuel (left + (right - left) / 2 + 1) right (k + 1)
    else (left, k)

/-- The macro `BinaryInsertionSort` on one run: the elements from `start` on
are inserted, one after the other, where the binary search puts them. -/
def binaryInsertionSort {α : Type} (rnd : Nat → Int) :
    Nat → List α → Nat → Nat → List α × Nat
  | 0, run, _, k => (run, k)
  | fuel + 1, run, start, k =>
    if start < run.length then
      let p := findInsertionPoint rnd start 0 start k
      binaryInsertionSort rnd fuel
        ((run.take start).take p.1 ++ (run.drop start).take 1 ++
          (run.take start).drop p.1 ++ run.drop (start + 1))
        (start + 1) p.2
    else (run, k)

/-- The galloping loop of `GallopLeft` and `GallopRight`: the offset goes
1, 3, 7, ... below `maxOfs` until a comparator answer stops it.  Returns
`lastOfs`, `offset` and the comparator call count. -/
def gallopProbe (rnd : Nat → Int) (stopOnNegative : Bool) :
    Nat → Nat → Nat → Nat → Nat → Nat × Nat × Nat
  | 0, _, lastOfs, offset, k => (lastOfs, offset, k)
  | fuel + 1, maxOfs, lastOfs, offset, k =>
    if offset < maxOfs then
      if stopOnNegative = decide (rnd k < 0) then (lastOfs, offset, k + 1)
      else gallopProbe rnd stopOnNegative fuel maxOfs offset (2 * offset + 1) (k + 1)
    else (lastOfs, offset, k)

/-- The closing binary search of `GallopLeft` and `GallopRight` between
`lastOfs + 1` and `offset`.  Returns `offset` and the comparator call count. -/
def gallopBisect (rnd : Nat → Int) (negativeRaisesLow : Bool) :
    Nat → Nat → Nat → Nat → Nat × Nat
  | 0, _, offset, k => (offset, k)
  | fuel + 1, low, offset, k =>
    if low < offset then
      if negativeRaisesLow = decide (rnd k < 0) then
        gallopBisect rnd negativeRaisesLow fuel (low + (offset - low) / 2 + 1) offset (k + 1)
      else
        gallopBisect rnd negativeRaisesLow fuel low (low + (offset - low) / 2) (k + 1)
    else (offset, k)

/-- The builtin `GallopLeft(array, key, base, length, hint)`; the first call
is `comparefn(array[base + hint], key)`. -/
def gallopLeft (rnd : Nat → Int) (length hint k : Nat) : Nat × Nat :=
  if rnd k < 0 then
    let p := gallopProbe rnd false (length - hint) (length - hint) 0 1 (k + 1)
    gallopBisect rnd true length (p.1 + hint + 1) (min p.2.1 (length - hint) + hint) p.2.2
  else
    let p := gallopProbe rnd true (hint + 1) (hint + 1) 0 1 (k + 1)
    gallopBisect rnd true length (hint + 1 - min p.2.1 (hint + 1)) (hint - p.1) p.2.2

/-- The builtin `GallopRight(array, key, base, length, hint)`; the first call
is `comparefn(key, array[base + hint])`. -/
def gallopRight (rnd : Nat → Int) (length hint k : Nat) : Nat × Nat :=
  if rnd k < 0 then
    let p := gallopProbe rnd false (hint + 1) (hint + 1) 0 1 (k + 1)
    gallopBisect rnd false length (hint + 1 - min p.2.1 (hint + 1)) (hint - p.1) p.2.2
  else
    let p := gallopProbe rnd true (length - hint) (length - hint) 0 1 (k + 1)
    gallopBisect rnd false length (p.1 + hint + 1) (min p.2.1 (length - hint) + hint) p.2.2

/-- Where a merge is: taking one element per comparator call, or galloping. -/
inductive MergePhase where
  | oneAtATime
  | galloping (firstIteration : Bool)

/-- The loops of `MergeLow`.  `out` is what has been written from the start of
run A up to `dest`, `a` what is left of the copy of run A in `tempArray`, `b`
what is left of run B.  The label `Succeed` leaves `out ++ a ++ b` (the rest of
A is copied behind `dest`, the rest of B is already in place) and the label
`CopyB` leaves `out ++ b ++ a`.  Returns the merged range, `minGallop` and the
comparator call count. -/
def mergeLowLoop {α : Type} (rnd : Nat → Int) :
    Nat → MergePhase → Nat → Nat → Nat → Nat → List α → List α → List α →
      List α × Nat × Nat
  | 0, _, _, _, minGallop, k, out, a, b => (out ++ a ++ b, minGallop, k)
  | fuel + 1, .oneAtATime, nofWinsA, nofWinsB, minGallop, k, out, a, b =>
    if rnd k < 0 then
      if (b.drop 1).length = 0 then (out ++ b.take 1 ++ a ++ b.drop 1, minGallop, k + 1)
      else if nofWinsB + 1 ≥ minGallop then
        mergeLowLoop rnd fuel (.galloping true) 0 (nofWinsB + 1) (minGallop + 1) (k + 1)
          (out ++ b.take 1) a (b.drop 1)
      else
        mergeLowLoop rnd fuel .oneAtATime 0 (nofWinsB + 1) minGallop (k + 1)
          (out ++ b.take 1) a (b.drop 1)
    else
      if (a.drop 1).length = 1 then (out ++ a.take 1 ++ b ++ a.drop 1, minGallop, k + 1)
      else if nofWinsA + 1 ≥ minGallop then
        mergeLowLoop rnd fuel (.galloping true) (nofWinsA + 1) 0 (minGallop + 1) (k + 1)
          (out ++ a.take 1) (a.drop 1) b
      else
        mergeLowLoop rnd fuel .oneAtATime (nofWinsA + 1) 0 minGallop (k + 1)
          (out ++ a.take 1) (a.drop 1) b
  | fuel + 1, .galloping firstIteration, nofWinsA, nofWinsB, minGallop, k, out, a, b =>
    if nofWinsA ≥ 7 ∨ nofWinsB ≥ 7 ∨ firstIteration = true then
      let ga := gallopRight rnd a.length 0 k
      let out1 := out ++ a.take ga.1
      let a1 := a.drop ga.1
      if ga.1 > 0 ∧ a1.length = 1 then (out1 ++ b ++ a1, max 1 (minGallop - 1), ga.2)
      else if ga.1 > 0 ∧ a1.length = 0 then (out1 ++ a1 ++ b, max 1 (minGallop - 1), ga.2)
      else
        let out2 := out1 ++ b.take 1
        let b1 := b.drop 1
        if b1.length = 0 then (out2 ++ a1 ++ b1, max 1 (minGallop - 1), ga.2)
        else
          let gb := gallopLeft rnd b1.length 0 ga.2
          let out3 := out2 ++ b1.take gb.1
          let b2 := b1.drop gb.1
          if gb.1 > 0 ∧ b2.length = 0 then (out3 ++ a1 ++ b2, max 1 (minGallop - 1), gb.2)
          else if (a1.drop 1).length = 1 then
            (out3 ++ a1.take 1 ++ b2 ++ a1.drop 1, max 1 (minGallop - 1), gb.2)
          else
            mergeLowLoop rnd fuel (.galloping false) ga.1 gb.1 (max 1 (minGallop - 1)) gb.2
              (out3 ++ a1.take 1) (a1.drop 1) b2
    else
      mergeLowLoop rnd fuel .oneAtATime 0 0 (minGallop + 1) k out a b

/-- The builtin `MergeLow`: run A is copied out and the merge fills the array
from the left, starting with the first element of run B. -/
def mergeLow {α : Type} (rnd : Nat → Int) (minGallop k : Nat) (a b : List α) :
    List α × Nat × Nat :=
  if (b.drop 1).length = 0 then (b.take 1 ++ a ++ b.drop 1, minGallop, k)
  else if a.length = 1 then (b.take 1 ++ b.drop 1 ++ a, minGallop, k)
  else
    mergeLowLoop rnd (2 * (a.length + b.length) + 2) .oneAtATime 0 0 minGallop k
      (b.take 1) a (b.drop 1)

/-- The loops of `MergeHigh`.  `out` is what has been written from `dest` to
the end of run B, `a` what is left of run A, `b` what is left of the copy of
run B in `tempArray`; both are consumed from their ends.  The label `Succeed`
leaves `a ++ b ++ out` and the label `CopyA` leaves `b ++ a ++ out`. -/
def mergeHighLoop {α : Type} (rnd : Nat → Int) :
    Nat → MergePhase → Nat → Nat → Nat → Nat → List α → List α → List α →
      List α × Nat × Nat
  | 0, _, _, _, minGallop, k, out, a, b => (a ++ b ++ out, minGallop, k)
  | fuel + 1, .oneAtATime, nofWinsA, nofWinsB, minGallop, k, out, a, b =>
    if rnd k < 0 then
      if (a.take (a.length - 1)).length = 0 then
        (a.take (a.length - 1) ++ b ++ a.drop (a.length - 1) ++ out, minGallop, k + 1)
      else if nofWinsA + 1 ≥ minGallop then
        mergeHighLoop rnd fuel (.galloping true) (nofWinsA + 1) 0 (minGallop + 1) (k + 1)
          (a.drop (a.length - 1) ++ out) (a.take (a.length - 1)) b
      else
        mergeHighLoop rnd fuel .oneAtATime (nofWinsA + 1) 0 minGallop (k + 1)
          (a.drop (a.length - 1) ++ out) (a.take (a.length - 1)) b
    else
      if (b.take (b.length - 1)).length = 1 then
        (b.take (b.length - 1) ++ a ++ b.drop (b.length - 1) ++ out, minGallop, k + 1)
      else if nofWinsB + 1 ≥ minGallop then
        mergeHighLoop rnd fuel (.galloping true) 0 (nofWinsB + 1) (minGallop + 1) (k + 1)
          (b.drop (b.length - 1) ++ out) a (b.take (b.length - 1))
      else
        mergeHighLoop rnd fuel .oneAtATime 0 (nofWinsB + 1) minGallop (k + 1)
          (b.drop (b.length - 1) ++ out) a (b.take (b.length - 1))
  | fuel + 1, .galloping firstIteration, nofWinsA, nofWinsB, minGallop, k, out, a, b =>
    if nofWinsA ≥ 7 ∨ nofWinsB ≥ 7 ∨ firstIteration = true then
      let ga := gallopRight rnd a.length (a.length - 1) k
      let a1 := a.take ga.1
      let out1 := a.drop ga.1 ++ out
      if a.length - ga.1 > 0 ∧ a1.length = 0 then
        (a1 ++ b ++ out1, max 1 (minGallop - 1), ga.2)
      else
        let b1 := b.take (b.length - 1)
        let out2 := b.drop (b.length - 1) ++ out1
        if b1.length = 1 then (b1 ++ a1 ++ out2, max 1 (minGallop - 1), ga.2)
        else
          let gb := gallopLeft rnd b1.length (b1.length - 1) ga.2
          let b2 := b1.take gb.1
          let out3 := b1.drop gb.1 ++ out2
          if b1.length - gb.1 > 0 ∧ b2.length = 1 then
            (b2 ++ a1 ++ out3, max 1 (minGallop - 1), gb.2)
          else if b1.length - gb.1 > 0 ∧ b2.length = 0 then
            (a1 ++ b2 ++ out3, max 1 (minGallop - 1), gb.2)
          else if (a1.take (a1.length - 1)).length = 0 then
            (a1.take (a1.length - 1) ++ b2 ++ a1.drop (a1.length - 1) ++ out3,
              max 1 (minGallop - 1), gb.2)
          else
            mergeHighLoop rnd fuel (.galloping false) (a.length - ga.1) (b1.length - gb.1)
              (max 1 (minGallop - 1)) gb.2
              (a1.drop (a1.length - 1) ++ out3) (a1.take (a1.length - 1)) b2
    else
      mergeHighLoop rnd fuel .oneAtATime 0 0 (minGallop + 1) k out a b

/-- The builtin `MergeHigh`: run B is copied out and the merge fills the array
from the right, starting with the last element of run A. -/
def mergeHigh {α : Type} (rnd : Nat → Int) (minGallop k : Nat) (a b : List α) :
    List α × Nat × Nat :=
  if (a.take (a.length - 1)).length = 0 then
    (a.take (a.length - 1) ++ b ++ a.drop (a.length - 1), minGallop, k)
  else if b.length = 1 then (b ++ a.take (a.length - 1) ++ a.drop (a.length - 1), minGallop, k)
  else
    mergeHighLoop rnd (2 * (a.length + b.length) + 2) .oneAtATime 0 0 minGallop k
      (a.drop (a.length - 1)) (a.take (a.length - 1)) b

/-- The builtin `MergeAt` on two neighbouring runs, `a` to the left of `b`. -/
def mergeAt {α : Type} (rnd : Nat → Int) (minGallop k : Nat) (a b : List α) :
    List α × Nat × Nat :=
  let ga := gallopRight rnd a.length 0 k
  if (a.drop ga.1).length = 0 then (a ++ b, minGallop, ga.2)
  else
    let gb := gallopLeft rnd b.length (b.length - 1) ga.2
    if gb.1 = 0 then (a ++ b, minGallop, gb.2)
    else if (a.drop ga.1).length ≤ (b.take gb.1).length then
      let m := mergeLow rnd minGallop gb.2 (a.drop ga.1) (b.take gb.1)
      (a.take ga.1 ++ m.1 ++ b.drop gb.1, m.2.1, m.2.2)
    else
      let m := mergeHigh rnd minGallop gb.2 (a.drop ga.1) (b.take gb.1)
      (a.take ga.1 ++ m.1 ++ b.drop gb.1, m.2.1, m.2.2)

/-- The macro `RunInvariantEstablished(pendingRuns, n)`, given the stack from
run `n` downwards: the run two below is longer than the two above it together. -/
def runInvariantEstablished {α : Type} : List (List α) → Bool
  | runN :: runNM :: runNMM :: _ => decide (runNMM.length > runNM.length + runN.length)
  | _ => true

/-- The macro `MergeCollapse`.  The stack of pending runs has its newest run
first. -/
def mergeCollapse {α : Type} (rnd : Nat → Int) :
    Nat → List (List α) → Nat → Nat → List (List α) × Nat × Nat
  | 0, pending, minGallop, k => (pending, minGallop, k)
  | fuel + 1, top :: second :: third :: deeper, minGallop, k =>
    if (!runInvariantEstablished (top :: second :: third :: deeper) ||
        !runInvariantEstablished (second :: third :: deeper)) = true then
      if third.length < top.length then
        let m := mergeAt rnd minGallop k third second
        mergeCollapse rnd fuel (top :: m.1 :: deeper) m.2.1 m.2.2
      else
        let m := mergeAt rnd minGallop k second top
        mergeCollapse rnd fuel (m.1 :: third :: deeper) m.2.1 m.2.2
    else if second.length ≤ top.length then
      let m := mergeAt rnd minGallop k second top
      mergeCollapse rnd fuel (m.1 :: third :: deeper) m.2.1 m.2.2
    else (top :: second :: third :: deeper, minGallop, k)
  | fuel + 1, [top, second], minGallop, k =>
    if second.length ≤ top.length then
      let m := mergeAt rnd minGallop k second top
      mergeCollapse rnd fuel [m.1] m.2.1 m.2.2
    else ([top, second], minGallop, k)
  | _ + 1, pending, minGallop, k => (pending, minGallop, k)

/-- The macro `MergeForceCollapse`. -/
def mergeForceCollapse {α : Type} (rnd : Nat → Int) :
    Nat → List (List α) → Nat → Nat → List (List α) × Nat × Nat
  | 0, pending, minGallop, k => (pending, minGallop, k)
  | fuel + 1, top :: second :: third :: deeper, minGallop, k =>
    if third.length < top.length then
      let m := mergeAt rnd minGallop k third second
      mergeForceCollapse rnd fuel (top :: m.1 :: deeper) m.2.1 m.2.2
    else
      let m := mergeAt rnd minGallop k second top
      mergeForceCollapse rnd fuel (m.1 :: third :: deeper) m.2.1 m.2.2
  | fuel + 1, [top, second], minGallop, k =>
    let m := mergeAt rnd minGallop k second top
    mergeForceCollapse rnd fuel [m.1] m.2.1 m.2.2
  | _ + 1, pending, minGallop, k => (pending, minGallop, k)

/-- The main loop of `ArrayTimSortImpl`: find the next run, extend a short one
to `minRunLength` by binary insertion, push it and restore the stack
invariants. -/
def collectRuns {α : Type} (rnd : Nat → Int) (minRunLength : Nat) :
    Nat → List α → List (List α) → Nat → Nat → List (List α) × Nat × Nat
  | 0, rest, pending, minGallop, k => (rest :: pending, minGallop, k)
  | fuel + 1, rest, pending, minGallop, k =>
    if rest.length = 0 then (pending, minGallop, k)
    else
      let c := countAndMakeRun rnd rest k
      if c.2.1 < minRunLength then
        let s := binaryInsertionSort rnd (min minRunLength rest.length)
          (c.1.take (min minRunLength rest.length)) (if c.2.1 = 0 then 1 else c.2.1) c.2.2
        let m := mergeCollapse rnd (pending.length + 1) (s.1 :: pending) minGallop s.2
        collectRuns rnd minRunLength fuel (c.1.drop (min minRunLength rest.length))
          m.1 m.2.1 m.2.2
      else
        let m := mergeCollapse rnd (pending.length + 1) (c.1.take c.2.1 :: pending)
          minGallop c.2.2
        collectRuns rnd minRunLength fuel (c.1.drop c.2.1) m.1 m.2.1 m.2.2

/-- The array a stack of runs stands for: the oldest run is leftmost. -/
def flattenRuns {α : Type} : List (List α) → List α
  | [] => []
  | top :: below => flattenRuns below ++ top

/-- The macro `ArrayTimSortImpl`, entered with `minGallop = 7`. -/
def arrayTimSort {α : Type} (rnd : Nat → Int) (array : List α) : List α :=
  if array.length < 2 then array
  else
    let r := collectRuns rnd (computeMinRunLength array.length array.length 0)
      array.length array [] 7 0
    (mergeForceCollapse rnd r.1.length r.1 r.2.1 r.2.2).1 |> flattenRuns

/-- The function `shuffleArray`: `array.sort(() => Math.random() - 0.5)`. -/
def shuffleArray {α : Type} (rnd : Nat → Int) (array : List α) : List α :=
  arrayTimSort rnd array

/-! ## Handlers -/

/-- The function `updateScoreDisplay(final)`. -/
def updateScoreDisplay (final : Bool) (s : State) : State :=
  { s with dom := { s.dom with
      scoreText := if final then .final s.score s.stimuli.length else .running s.score } }

/-- The function `endGame`. -/
def endGame (s : State) : State :=
  let s1 := { s with dom := { s.dom with stimulusText := .gameOver } }
  let s2 := updateScoreDisplay true s1
  { s2 with dom := { s2.dom with
      leftDisabled := true
      rightDisabled := true
      gameOverMsg := some (s2.score, s2.stimuli.length)
      gameOverShown := true
      restartShown := true } }

/-- The function `showNextStimulus`. -/
def showNextStimulus (s : State) : State :=
  if h : s.currentIndex < s.stimuli.length then
    { s with dom := { s.dom with
        stimulusText := .word (s.stimuli.get ⟨s.currentIndex, h⟩).word } }
  else
    endGame s

/-- The function `initGame`, with the seed list `originalStimuli` and the
random draws of the shuffle as arguments. -/
def initGame (seeds : List Stimulus) (rnd : Nat → Int) (s : State) : State :=
  let s1 := { s with
    stimuli := shuffleArray rnd seeds
    currentIndex := 0
    score := 0
    responses := []
    dom := { s.dom with
      leftDisabled := false
      rightDisabled := false
      restartShown := false
      gameOverShown := false } }
  showNextStimulus (updateScoreDisplay false s1)

/-- The function `saveResponse`: push, then write the whole array to `localStorage`. -/
def saveResponse (response : Response) (s : State) : State :=
  { s with
    responses := s.responses ++ [response]
    gameData := some (s.responses ++ [response]) }

/-- The function `showFeedback`, up to and including the `setTimeout(..., 600)` call. -/
def showFeedback (isCorrect : Bool) (s : State) : State :=
  { s with
    dom := { s.dom with feedbackMark := some isCorrect, feedbackShown := true }
    pendingAdvance := s.pendingAdvance + 1 }

/-- The body of the 600 ms callback scheduled by `showFeedback`. -/
def advanceCallback (s : State) : State :=
  showNextStimulus { s with
    dom := { s.dom with feedbackShown := false }
    currentIndex := s.currentIndex + 1 }

/-- The function `handleResponse`. -/
def handleResponse (choice : Category) (s : State) : State :=
  if h : s.currentIndex ≥ s.stimuli.length then s
  else
    let wordObj := s.stimuli.get ⟨s.currentIndex, Nat.lt_of_not_le h⟩
    let isCorrect := decide (choice = wordObj.correct)
    let s1 := if isCorrect then { s with score := s.score + 1 } else s
    let s2 := updateScoreDisplay false s1
    let s3 := saveResponse ⟨wordObj.word, choice, isCorrect⟩ s2
    showFeedback isCorrect s3

/-- One scheduled 600 ms callback leaves the timer queue and runs. -/
def fireAdvance (s : State) : State :=
  advanceCallback { s with pendingAdvance := s.pendingAdvance - 1 }

/-! ## Events -/

/-- The things that can happen to the page after it has loaded. -/
inductive Event where
  /-- A click on the restart button, with the random draws of its shuffle. -/
  | initGame (rnd : Nat → Int)
  /-- A click, key press or swipe normalized to a category. -/
  | handleResponse (choice : Category)
  /-- One scheduled 600 ms callback runs. -/
  | delayedAdvance

/-- One event.  A delayed advance can only run when one is scheduled. -/
def step (seeds : List Stimulus) (s : State) : Event → Option State
  | .initGame rnd => some (initGame seeds rnd s)
  | .handleResponse choice => some (handleResponse choice s)
  | .delayedAdvance =>
    if 0 < s.pendingAdvance then
      some (fireAdvance s)
    else none

/-- A sequence of events, in order. -/
def run (seeds : List Stimulus) : State → List Event → Option State
  | s, [] => some s
  | s, e :: es =>
    match step seeds s e with
    | some s1 => run seeds s1 es
    | none => none

/-- The state when the script starts: the declarations of lines 36 to 39,
whatever the document and `localStorage` hold, and no timer scheduled. -/
def pageLoad (dom : Dom) (gameData : Option (List Response)) : State :=
  { stimuli := [], currentIndex := 0, score := 0, responses := [],
    gameData := gameData, pendingAdvance := 0, dom := dom }

/-- States the page can be in: the script's own `initGame()` call on page
load, followed by any events. -/
def Reachable (seeds : List Stimulus) (s : State) : Prop :=
  ∃ dom gameData rnd evs,
    run seeds (initGame seeds rnd (pageLoad dom gameData)) evs = some s

/-- The guard of `handleResponse`: no stimulus is left. -/
def isComplete (s : State) : Bool :=
  decide (s.currentIndex ≥ s.stimuli.length)

/-- An answer followed by its delayed advance, for each choice in turn. -/
def playEvents : List Category → List Event
  | [] => []
  | c :: cs => .handleResponse c :: .delayedAdvance :: playEvents cs

/-- A document before the script has run. -/
def blankDom : Dom :=
  { stimulusText := .word "", feedbackMark := none, feedbackShown := false,
    scoreText := .running 0, leftDisabled := false, rightDisabled := false,
    restartShown := false, gameOverMsg := none, gameOverShown := false }

/-- A comparator that answers negative and positive in turn. -/
def alternating (k : Nat) : Int :=
  if k % 2 = 0 then -1 else 1

/-- The comparator answers of one page load: positive on calls 0, 3 and 4,
negative on the others.  They shuffle the four seeds to Apple, Dog, Car,
Banana. -/
def sampleDraws (k : Nat) : Int :=
  if k = 0 ∨ k = 3 ∨ k = 4 then 1 else -1

/-- Whether every `handleResponse` of the sequence arrives while no delayed
advance is scheduled, that is, after the previous answer's callback has run. -/
def answersSerialized (seeds : List Stimulus) : State → List Event → Bool
  | _, [] => true
  | s, e :: es =>
    (match e with
      | .handleResponse _ => decide (s.pendingAdvance = 0)
      | _ => true) &&
    (match step seeds s e with
      | some s1 => answersSerialized seeds s1 es
      | none => true)

/-- Bookkeeping beside `run`: for each entry of the current `responses` array,
the value `currentIndex` had when `handleResponse` saved it.  It is emptied
where `initGame` empties `responses` and grows where `saveResponse` is
reached. -/
def recordedAt (seeds : List Stimulus) : State → List Nat → List Event → List Nat
  | _, acc, [] => acc
  | s, acc, e :: es =>
    match step seeds s e with
    | none => acc
    | some s1 =>
      match e with
      | .initGame _ => recordedAt seeds s1 [] es
      | .handleResponse _ =>
        recordedAt seeds s1
          (if s.currentIndex < s.stimuli.length then acc ++ [s.currentIndex] else acc) es
      | .delayedAdvance => recordedAt seeds s1 acc es

/-- Four choices, one per word of the source's seed list. -/
def sampleChoices : List Category :=
  [.left, .left, .right, .right]

/-- The page right after it has loaded, with the seed list of the source. -/
def freshGame : State :=
  initGame originalStimuli sampleDraws (pageLoad blankDom none)

/-- The page after the four sample choices have been played one at a time. -/
def finishedGame : State :=
  (run originalStimuli freshGame (playEvents sampleChoices)).getD freshGame

/-! ## Shape of one answer -/

/-- The state `handleResponse` returns when a stimulus is left, written out
field by field. -/
theorem handleResponse_of_lt (choice : Category) (s : State)
    (h : s.currentIndex < s.stimuli.length) :
    handleResponse choice s =
      { s with
        score := s.score +
          (if choice = (s.stimuli.get ⟨s.currentIndex, h⟩).correct then 1 else 0)
        responses := s.responses ++
          [⟨(s.stimuli.get ⟨s.currentIndex, h⟩).word, choice,
            decide (choice = (s.stimuli.get ⟨s.currentIndex, h⟩).correct)⟩]
        gameData := some (s.responses ++
          [⟨(s.stimuli.get ⟨s.currentIndex, h⟩).word, choice,
            decide (choice = (s.stimuli.get ⟨s.currentIndex, h⟩).correct)⟩])
        pendingAdvance := s.pendingAdvance + 1
        dom := { s.dom with
          scoreText := .running (s.score +
            (if choice = (s.stimuli.get ⟨s.currentIndex, h⟩).correct then 1 else 0))
          feedbackMark := some
            (decide (choice = (s.stimuli.get ⟨s.currentIndex, h⟩).correct))
          feedbackShown := true } } := by
  have hn : ¬ s.currentIndex ≥ s.stimuli.length := Nat.not_le.mpr h
  by_cases hc : choice = (s.stimuli[s.currentIndex]).correct
  · simp [handleResponse, hn, hc, showFeedback, saveResponse, updateScoreDisplay]
  · simp [handleResponse, hn, hc, showFeedback, saveResponse, updateScoreDisplay]

/-- The early return of `handleResponse`. -/
theorem handleResponse_of_ge (choice : Category) (s : State)
    (h : s.currentIndex ≥ s.stimuli.length) :
    handleResponse choice s = s := by
  simp [handleResponse, h]

/-! ## The shuffle permutes -/

/-- A list splits, as a multiset, into what `take` keeps and what `drop` keeps. -/
theorem coe_take_add_drop {α : Type} (n : Nat) (l : List α) :
    (l : Multiset α) = (l.take n : Multiset α) + (l.drop n : Multiset α) := by
  rw [Multiset.coe_add, List.take_append_drop]

theorem countAndMakeRun_perm {α : Type} (rnd : Nat → Int) (rest : List α) (k : Nat) :
    (countAndMakeRun rnd rest k).1.Perm rest := by
  unfold countAndMakeRun
  split
  · exact List.Perm.refl _
  · dsimp only
    split
    · rw [← Multiset.coe_eq_coe, ← Multiset.coe_add, Multiset.coe_reverse, Multiset.coe_add,
        List.take_append_drop]
    · exact List.Perm.refl _

theorem binaryInsertionSort_perm {α : Type} (rnd : Nat → Int) :
    ∀ (fuel : Nat) (run : List α) (start k : Nat),
      (binaryInsertionSort rnd fuel run start k).1.Perm run
  | 0, run, _, _ => by simp [binaryInsertionSort]
  | fuel + 1, run, start, k => by
    unfold binaryInsertionSort
    split
    · refine (binaryInsertionSort_perm rnd fuel _ _ _).trans ?_
      have h1 := coe_take_add_drop start run
      have h2 := coe_take_add_drop (findInsertionPoint rnd start 0 start k).1 (run.take start)
      have h3 := coe_take_add_drop 1 (run.drop start)
      rw [List.drop_drop] at h3
      rw [← Multiset.coe_eq_coe]
      simp only [← Multiset.coe_add]
      rw [h1, h2, h3]
      abel
    · exact List.Perm.refl _

theorem mergeLowLoop_perm {α : Type} (rnd : Nat → Int) :
    ∀ (fuel : Nat) (phase : MergePhase) (nofWinsA nofWinsB minGallop k : Nat)
      (out a b : List α),
      (mergeLowLoop rnd fuel phase nofWinsA nofWinsB minGallop k out a b).1.Perm
        (out ++ a ++ b)
  | 0, _, _, _, _, _, _, _, _ => by simp [mergeLowLoop]
  | fuel + 1, .oneAtATime, nofWinsA, nofWinsB, minGallop, k, out, a, b => by
    have hA := coe_take_add_drop 1 a
    have hB := coe_take_add_drop 1 b
    unfold mergeLowLoop
    split_ifs
    all_goals first
      | (refine (mergeLowLoop_perm rnd fuel _ _ _ _ _ _ _ _).trans ?_
         rw [← Multiset.coe_eq_coe]
         simp only [← Multiset.coe_add]
         rw [hA, hB]
         abel)
      | (rw [← Multiset.coe_eq_coe]
         simp only [← Multiset.coe_add]
         rw [hA, hB]
         abel)
  | fuel + 1, .galloping firstIteration, nofWinsA, nofWinsB, minGallop, k, out, a, b => by
    have hA := coe_take_add_drop (gallopRight rnd a.length 0 k).1 a
    have hA1 := coe_take_add_drop 1 (a.drop (gallopRight rnd a.length 0 k).1)
    have hB := coe_take_add_drop 1 b
    have hB1 := coe_take_add_drop
      (gallopLeft rnd (b.drop 1).length 0 (gallopRight rnd a.length 0 k).2).1 (b.drop 1)
    unfold mergeLowLoop
    dsimp only
    split_ifs
    all_goals first
      | exact mergeLowLoop_perm rnd fuel _ _ _ _ _ _ _ _
      | (refine (mergeLowLoop_perm rnd fuel _ _ _ _ _ _ _ _).trans ?_
         rw [← Multiset.coe_eq_coe]
         simp only [← Multiset.coe_add]
         rw [hA, hA1, hB, hB1]
         abel)
      | (rw [← Multiset.coe_eq_coe]
         simp only [← Multiset.coe_add]
         rw [hA, hA1, hB, hB1]
         abel)

theorem mergeLow_perm {α : Type} (rnd : Nat → Int) (minGallop k : Nat) (a b : List α) :
    (mergeLow rnd minGallop k a b).1.Perm (a ++ b) := by
  have hB := coe_take_add_drop 1 b
  unfold mergeLow
  split_ifs
  all_goals first
    | (refine (mergeLowLoop_perm rnd _ _ _ _ _ _ _ _ _).trans ?_
       rw [← Multiset.coe_eq_coe]
       simp only [← Multiset.coe_add]
       rw [hB]
       abel)
    | (rw [← Multiset.coe_eq_coe]
       simp only [← Multiset.coe_add]
       rw [hB]
       abel)

theorem mergeHighLoop_perm {α : Type} (rnd : Nat → Int) :
    ∀ (fuel : Nat) (phase : MergePhase) (nofWinsA nofWinsB minGallop k : Nat)
      (out a b : List α),
      (mergeHighLoop rnd fuel phase nofWinsA nofWinsB minGallop k out a b).1.Perm
        (a ++ b ++ out)
  | 0, _, _, _, _, _, _, _, _ => by simp [mergeHighLoop]
  | fuel + 1, .oneAtATime, nofWinsA, nofWinsB, minGallop, k, out, a, b => by
    have hA := coe_take_add_drop (a.length - 1) a
    have hB := coe_take_add_drop (b.length - 1) b
    unfold mergeHighLoop
    split_ifs
    all_goals first
      | (refine (mergeHighLoop_perm rnd fuel _ _ _ _ _ _ _ _).trans ?_
         rw [← Multiset.coe_eq_coe]
         simp only [← Multiset.coe_add]
         rw [hA, hB]
         abel)
      | (rw [← Multiset.coe_eq_coe]
         simp only [← Multiset.coe_add]
         rw [hA, hB]
         abel)
  | fuel + 1, .galloping firstIteration, nofWinsA, nofWinsB, minGallop, k, out, a, b => by
    have hA := coe_take_add_drop (gallopRight rnd a.length (a.length - 1) k).1 a
    have hA1 := coe_take_add_drop
      ((a.take (gallopRight rnd a.length (a.length - 1) k).1).length - 1)
      (a.take (gallopRight rnd a.length (a.length - 1) k).1)
    have hB := coe_take_add_drop (b.length - 1) b
    have hB1 := coe_take_add_drop
      (gallopLeft rnd (b.take (b.length - 1)).length ((b.take (b.length - 1)).length - 1)
        (gallopRight rnd a.length (a.length - 1) k).2).1 (b.take (b.length - 1))
    unfold mergeHighLoop
    dsimp only
    split_ifs
    all_goals first
      | exact mergeHighLoop_perm rnd fuel _ _ _ _ _ _ _ _
      | (refine (mergeHighLoop_perm rnd fuel _ _ _ _ _ _ _ _).trans ?_
         rw [← Multiset.coe_eq_coe]
         simp only [← Multiset.coe_add]
         rw [hA, hA1, hB, hB1]
         abel)
      | (rw [← Multiset.coe_eq_coe]
         simp only [← Multiset.coe_add]
         rw [hA, hA1, hB, hB1]
         abel)

theorem mergeHigh_perm {α : Type} (rnd : Nat → Int) (minGallop k : Nat) (a b : List α) :
    (mergeHigh rnd minGallop k a b).1.Perm (a ++ b) := by
  have hA := coe_take_add_drop (a.length - 1) a
  unfold mergeHigh
  split_ifs
  all_goals first
    | (refine (mergeHighLoop_perm rnd _ _ _ _ _ _ _ _ _).trans ?_
       rw [← Multiset.coe_eq_coe]
       simp only [← Multiset.coe_add]
       rw [hA]
       abel)
    | (rw [← Multiset.coe_eq_coe]
       simp only [← Multiset.coe_add]
       rw [hA]
       abel)

theorem mergeAt_perm {α : Type} (rnd : Nat → Int) (minGallop k : Nat) (a b : List α) :
    (mergeAt rnd minGallop k a b).1.Perm (a ++ b) := by
  have hA := coe_take_add_drop (gallopRight rnd a.length 0 k).1 a
  have hB := coe_take_add_drop
    (gallopLeft rnd b.length (b.length - 1) (gallopRight rnd a.length 0 k).2).1 b
  unfold mergeAt
  dsimp only
  split_ifs
  · exact List.Perm.refl _
  · exact List.Perm.refl _
  · have hm := mergeLow_perm rnd minGallop
      (gallopLeft rnd b.length (b.length - 1) (gallopRight rnd a.length 0 k).2).2
      (a.drop (gallopRight rnd a.length 0 k).1)
      (b.take (gallopLeft rnd b.length (b.length - 1) (gallopRight rnd a.length 0 k).2).1)
    rw [← Multiset.coe_eq_coe] at hm ⊢
    simp only [← Multiset.coe_add] at hm ⊢
    rw [hm, hA, hB]
    abel
  · have hm := mergeHigh_perm rnd minGallop
      (gallopLeft rnd b.length (b.length - 1) (gallopRight rnd a.length 0 k).2).2
      (a.drop (gallopRight rnd a.length 0 k).1)
      (b.take (gallopLeft rnd b.length (b.length - 1) (gallopRight rnd a.length 0 k).2).1)
    rw [← Multiset.coe_eq_coe] at hm ⊢
    simp only [← Multiset.coe_add] at hm ⊢
    rw [hm, hA, hB]
    abel

theorem flattenRuns_cons {α : Type} (top : List α) (below : List (List α)) :
    (flattenRuns (top :: below) : Multiset α) = (flattenRuns below : Multiset α) + top := by
  rw [flattenRuns, Multiset.coe_add]

theorem mergeCollapse_perm {α : Type} (rnd : Nat → Int) :
    ∀ (fuel : Nat) (pending : List (List α)) (minGallop k : Nat),
      (flattenRuns (mergeCollapse rnd fuel pending minGallop k).1).Perm (flattenRuns pending)
  | 0, _, _, _ => by simp [mergeCollapse]
  | fuel + 1, [], _, _ => by simp [mergeCollapse]
  | fuel + 1, [_], _, _ => by simp [mergeCollapse]
  | fuel + 1, [top, second], minGallop, k => by
    unfold mergeCollapse
    split_ifs
    · refine (mergeCollapse_perm rnd fuel _ _ _).trans ?_
      have hm := mergeAt_perm rnd minGallop k second top
      rw [← Multiset.coe_eq_coe] at hm ⊢
      simp only [flattenRuns_cons, ← Multiset.coe_add] at hm ⊢
      rw [hm]
      abel
    · exact List.Perm.refl _
  | fuel + 1, top :: second :: third :: deeper, minGallop, k => by
    unfold mergeCollapse
    have h1 := mergeAt_perm rnd minGallop k third second
    have h2 := mergeAt_perm rnd minGallop k second top
    rw [← Multiset.coe_eq_coe] at h1 h2
    simp only [← Multiset.coe_add] at h1 h2
    split_ifs
    all_goals first
      | exact List.Perm.refl _
      | (refine (mergeCollapse_perm rnd fuel _ _ _).trans ?_
         rw [← Multiset.coe_eq_coe]
         simp only [flattenRuns_cons, ← Multiset.coe_add]
         first
           | (rw [h1]; abel)
           | (rw [h2]; abel))

theorem mergeForceCollapse_perm {α : Type} (rnd : Nat → Int) :
    ∀ (fuel : Nat) (pending : List (List α)) (minGallop k : Nat),
      (flattenRuns (mergeForceCollapse rnd fuel pending minGallop k).1).Perm
        (flattenRuns pending)
  | 0, _, _, _ => by simp [mergeForceCollapse]
  | fuel + 1, [], _, _ => by simp [mergeForceCollapse]
  | fuel + 1, [_], _, _ => by simp [mergeForceCollapse]
  | fuel + 1, [top, second], minGallop, k => by
    unfold mergeForceCollapse
    refine (mergeForceCollapse_perm rnd fuel _ _ _).trans ?_
    have hm := mergeAt_perm rnd minGallop k second top
    rw [← Multiset.coe_eq_coe] at hm ⊢
    simp only [flattenRuns_cons, ← Multiset.coe_add] at hm ⊢
    rw [hm]
    abel
  | fuel + 1, top :: second :: third :: deeper, minGallop, k => by
    unfold mergeForceCollapse
    have h1 := mergeAt_perm rnd minGallop k third second
    have h2 := mergeAt_perm rnd minGallop k second top
    rw [← Multiset.coe_eq_coe] at h1 h2
    simp only [← Multiset.coe_add] at h1 h2
    split_ifs
    all_goals
      (refine (mergeForceCollapse_perm rnd fuel _ _ _).trans ?_
       rw [← Multiset.coe_eq_coe]
       simp only [flattenRuns_cons, ← Multiset.coe_add]
       first
         | (rw [h1]; abel)
         | (rw [h2]; abel))

theorem collectRuns_perm {α : Type} (rnd : Nat → Int) (minRunLength : Nat) :
    ∀ (fuel : Nat) (rest : List α) (pending : List (List α)) (minGallop k : Nat),
      (flattenRuns (collectRuns rnd minRunLength fuel rest pending minGallop k).1).Perm
        (flattenRuns pending ++ rest)
  | 0, _, _, _, _ => by simp [collectRuns, flattenRuns]
  | fuel + 1, rest, pending, minGallop, k => by
    unfold collectRuns
    dsimp only
    generalize (if (countAndMakeRun rnd rest k).2.1 = 0 then 1
      else (countAndMakeRun rnd rest k).2.1) = start
    have hc := countAndMakeRun_perm rnd rest k
    rw [← Multiset.coe_eq_coe] at hc
    split_ifs with h0
    · rw [List.length_eq_zero.mp h0, List.append_nil]
    · refine (collectRuns_perm rnd minRunLength fuel _ _ _ _).trans ?_
      have hs := binaryInsertionSort_perm rnd (min minRunLength rest.length)
        ((countAndMakeRun rnd rest k).1.take (min minRunLength rest.length)) start
        (countAndMakeRun rnd rest k).2.2
      have hm := mergeCollapse_perm rnd (pending.length + 1)
        ((binaryInsertionSort rnd (min minRunLength rest.length)
          ((countAndMakeRun rnd rest k).1.take (min minRunLength rest.length)) start
          (countAndMakeRun rnd rest k).2.2).1 :: pending) minGallop
        (binaryInsertionSort rnd (min minRunLength rest.length)
          ((countAndMakeRun rnd rest k).1.take (min minRunLength rest.length)) start
          (countAndMakeRun rnd rest k).2.2).2
      have hsplit := coe_take_add_drop (min minRunLength rest.length)
        (countAndMakeRun rnd rest k).1
      rw [← Multiset.coe_eq_coe] at hs hm ⊢
      simp only [flattenRuns_cons, ← Multiset.coe_add] at hm ⊢
      rw [hm, hs, ← hc, hsplit]
      abel
    · refine (collectRuns_perm rnd minRunLength fuel _ _ _ _).trans ?_
      have hm := mergeCollapse_perm rnd (pending.length + 1)
        ((countAndMakeRun rnd rest k).1.take (countAndMakeRun rnd rest k).2.1 :: pending)
        minGallop (countAndMakeRun rnd rest k).2.2
      have hsplit := coe_take_add_drop (countAndMakeRun rnd rest k).2.1
        (countAndMakeRun rnd rest k).1
      rw [← Multiset.coe_eq_coe] at hm ⊢
      simp only [flattenRuns_cons, ← Multiset.coe_add] at hm ⊢
      rw [hm, ← hc, hsplit]
      abel

/-- Whatever the comparator answers, the engine's sort returns a permutation. -/
theorem arrayTimSort_perm {α : Type} (rnd : Nat → Int) (array : List α) :
    (arrayTimSort rnd array).Perm array := by
  unfold arrayTimSort
  split_ifs
  · exact List.Perm.refl _
  · dsimp only
    refine (mergeForceCollapse_perm rnd _ _ _ _).trans ?_
    refine (collectRuns_perm rnd _ _ _ _ _ _).trans ?_
    simp [flattenRuns]

/-- Whatever the comparator answers, `shuffleArray` returns a permutation. -/
theorem shuffleArray_perm {α : Type} (rnd : Nat → Int) (array : List α) :
    (shuffleArray rnd array).Perm array :=
  arrayTimSort_perm rnd array

/-- The shuffle on fixed comparator answers: all negative reverses the array,
all non-negative leaves it as it is, and answers that alternate from a
negative one give the orders below. -/
theorem shuffleArray_examples :
    shuffleArray (fun _ => -1) ["Apple", "Banana", "Dog", "Car"]
      = ["Car", "Dog", "Banana", "Apple"] ∧
    shuffleArray (fun _ => 1) ["Apple", "Banana", "Dog", "Car"]
      = ["Apple", "Banana", "Dog", "Car"] ∧
    shuffleArray alternating ["Apple", "Banana", "Dog", "Car"]
      = ["Banana", "Car", "Dog", "Apple"] ∧
    shuffleArray (fun _ => -1) ["Apple", "Banana"] = ["Banana", "Apple"] ∧
    shuffleArray alternating [1, 2, 3, 4, 5, 6, 7] = [2, 4, 7, 6, 5, 3, 1] ∧
    shuffleArray sampleDraws ["Apple", "Banana", "Dog", "Car"]
      = ["Apple", "Dog", "Car", "Banana"] := by
  decide

/-- The shuffle keeps the length. -/
theorem shuffleArray_length {α : Type} (rnd : Nat → Int) (array : List α) :
    (shuffleArray rnd array).length = array.length :=
  (shuffleArray_perm rnd array).length_eq

/-! ## Fields after `initGame` and after the callback -/

theorem showNextStimulus_fields (s : State) :
    (showNextStimulus s).stimuli = s.stimuli ∧
    (showNextStimulus s).currentIndex = s.currentIndex ∧
    (showNextStimulus s).score = s.score ∧
    (showNextStimulus s).responses = s.responses ∧
    (showNextStimulus s).gameData = s.gameData ∧
    (showNextStimulus s).pendingAdvance = s.pendingAdvance := by
  unfold showNextStimulus
  split <;> simp [endGame, updateScoreDisplay]

theorem initGame_fields (seeds : List Stimulus) (rnd : Nat → Int) (s : State) :
    (initGame seeds rnd s).stimuli = shuffleArray rnd seeds ∧
    (initGame seeds rnd s).currentIndex = 0 ∧
    (initGame seeds rnd s).score = 0 ∧
    (initGame seeds rnd s).responses = [] ∧
    (initGame seeds rnd s).gameData = s.gameData ∧
    (initGame seeds rnd s).pendingAdvance = s.pendingAdvance := by
  obtain ⟨h1, h2, h3, h4, h5, h6⟩ := showNextStimulus_fields
    (updateScoreDisplay false { s with
      stimuli := shuffleArray rnd seeds
      currentIndex := 0
      score := 0
      responses := []
      dom := { s.dom with
        leftDisabled := false
        rightDisabled := false
        restartShown := false
        gameOverShown := false } })
  unfold initGame
  simp only [h1, h2, h3, h4, h5, h6]
  simp [updateScoreDisplay]

theorem advanceCallback_fields (s : State) :
    (advanceCallback s).stimuli = s.stimuli ∧
    (advanceCallback s).currentIndex = s.currentIndex + 1 ∧
    (advanceCallback s).score = s.score ∧
    (advanceCallback s).responses = s.responses ∧
    (advanceCallback s).gameData = s.gameData ∧
    (advanceCallback s).pendingAdvance = s.pendingAdvance := by
  obtain ⟨h1, h2, h3, h4, h5, h6⟩ := showNextStimulus_fields
    { s with dom := { s.dom with feedbackShown := false }
             currentIndex := s.currentIndex + 1 }
  unfold advanceCallback
  simp only [h1, h2, h3, h4, h5, h6]
  simp

theorem fireAdvance_fields (s : State) :
    (fireAdvance s).stimuli = s.stimuli ∧
    (fireAdvance s).currentIndex = s.currentIndex + 1 ∧
    (fireAdvance s).score = s.score ∧
    (fireAdvance s).responses = s.responses ∧
    (fireAdvance s).gameData = s.gameData ∧
    (fireAdvance s).pendingAdvance = s.pendingAdvance - 1 := by
  unfold fireAdvance
  exact advanceCallback_fields _

/-- The callback that moves past the last stimulus runs `endGame`. -/
theorem fireAdvance_endGame (s : State) (h : s.stimuli.length ≤ s.currentIndex + 1) :
    (fireAdvance s).dom.stimulusText = .gameOver ∧
    (fireAdvance s).dom.gameOverShown = true ∧
    (fireAdvance s).dom.restartShown = true ∧
    (fireAdvance s).dom.scoreText = .final s.score s.stimuli.length ∧
    (fireAdvance s).dom.gameOverMsg = some (s.score, s.stimuli.length) := by
  have hn : ¬ s.currentIndex + 1 < s.stimuli.length := Nat.not_lt.mpr h
  simp [fireAdvance, advanceCallback, showNextStimulus, hn, endGame, updateScoreDisplay]

/-! ## Claims about a single call -/

/-- C1: in an in-progress state, `handleResponse choice` adds 1 to `score`
when the choice is the current stimulus's correct category and 0 otherwise,
and appends exactly one entry to `responses`, built from the current word,
the choice and the comparison; the earlier entries stay in front, unchanged. -/
theorem handleResponse_scores_and_logs (s : State) (choice : Category)
    (h : s.currentIndex < s.stimuli.length) :
    (handleResponse choice s).score = s.score +
      (if choice = (s.stimuli.get ⟨s.currentIndex, h⟩).correct then 1 else 0) ∧
    (handleResponse choice s).responses = s.responses ++
      [{ word := (s.stimuli.get ⟨s.currentIndex, h⟩).word
         choice := choice
         isCorrect := decide (choice = (s.stimuli.get ⟨s.currentIndex, h⟩).correct) }] ∧
    (handleResponse choice s).responses.length = s.responses.length + 1 ∧
    (handleResponse choice s).responses.take s.responses.length = s.responses := by
  rw [handleResponse_of_lt choice s h]
  simp

theorem handleResponse_scores_and_logs_witness :
    freshGame.currentIndex < freshGame.stimuli.length ∧
    (handleResponse .left freshGame).score = 1 ∧
    (handleResponse .left freshGame).responses = [⟨"Apple", .left, true⟩] := by
  refine ⟨by decide, ?_, ?_⟩
  · have h := (handleResponse_scores_and_logs freshGame .left (by decide)).1
    rw [h]; decide
  · have h := (handleResponse_scores_and_logs freshGame .left (by decide)).2.1
    rw [h]; decide

/-- C2 as stated fails: on the freshly loaded page, `handleResponse` returns
with `currentIndex` still 0, not 1. -/
theorem handleResponse_advance_counterexample :
    freshGame.currentIndex < freshGame.stimuli.length ∧
    freshGame.currentIndex = 0 ∧
    (handleResponse .left freshGame).currentIndex = 0 ∧
    (handleResponse .left freshGame).currentIndex ≠ freshGame.currentIndex + 1 := by
  decide

/-- C2 amended: in an in-progress state, `handleResponse choice` returns with
`currentIndex` unchanged and exactly one more delayed advance scheduled; that
delayed advance can then run, and when it has run `currentIndex` is exactly
one more than before the call and the scheduled count is back where it was. -/
theorem handleResponse_schedules_advance (seeds : List Stimulus) (s : State)
    (choice : Category) (h : s.currentIndex < s.stimuli.length) :
    (handleResponse choice s).currentIndex = s.currentIndex ∧
    (handleResponse choice s).pendingAdvance = s.pendingAdvance + 1 ∧
    ∃ s1, step seeds (handleResponse choice s) .delayedAdvance = some s1 ∧
      s1.currentIndex = s.currentIndex + 1 ∧
      s1.pendingAdvance = s.pendingAdvance := by
  refine ⟨by rw [handleResponse_of_lt choice s h],
    by rw [handleResponse_of_lt choice s h], ?_⟩
  have hp : 0 < (handleResponse choice s).pendingAdvance := by
    rw [handleResponse_of_lt choice s h]; exact Nat.succ_pos _
  refine ⟨fireAdvance (handleResponse choice s), by simp [step, hp], ?_, ?_⟩
  · rw [(fireAdvance_fields _).2.1, handleResponse_of_lt choice s h]
  · rw [(fireAdvance_fields _).2.2.2.2.2, handleResponse_of_lt choice s h]
    simp

theorem handleResponse_schedules_advance_witness :
    freshGame.currentIndex < freshGame.stimuli.length ∧
    (handleResponse .left freshGame).currentIndex = freshGame.currentIndex ∧
    (handleResponse .left freshGame).pendingAdvance = freshGame.pendingAdvance + 1 ∧
    ∃ s1, step originalStimuli (handleResponse .left freshGame) .delayedAdvance = some s1 ∧
      s1.currentIndex = freshGame.currentIndex + 1 ∧
      s1.pendingAdvance = freshGame.pendingAdvance :=
  ⟨by decide, handleResponse_schedules_advance originalStimuli freshGame .left (by decide)⟩

/-- C4: whatever the prior state and whatever the comparator answers,
`initGame` on a non-empty seed list installs a permutation of the seeds of
the same length, with `currentIndex = 0`, `score = 0` and `responses = []`;
these four do not depend on the prior state. -/
theorem initGame_fresh_session (seeds : List Stimulus) (rnd : Nat → Int) (prior : State)
    (hne : seeds ≠ []) :
    (initGame seeds rnd prior).stimuli.Perm seeds ∧
    (initGame seeds rnd prior).stimuli.length = seeds.length ∧
    (initGame seeds rnd prior).stimuli ≠ [] ∧
    (initGame seeds rnd prior).currentIndex = 0 ∧
    (initGame seeds rnd prior).score = 0 ∧
    (initGame seeds rnd prior).responses = [] ∧
    ∀ other : State,
      (initGame seeds rnd other).stimuli = (initGame seeds rnd prior).stimuli ∧
      (initGame seeds rnd other).currentIndex = (initGame seeds rnd prior).currentIndex ∧
      (initGame seeds rnd other).score = (initGame seeds rnd prior).score ∧
      (initGame seeds rnd other).responses = (initGame seeds rnd prior).responses := by
  obtain ⟨h1, h2, h3, h4, -, -⟩ := initGame_fields seeds rnd prior
  refine ⟨h1 ▸ shuffleArray_perm rnd seeds, h1 ▸ shuffleArray_length rnd seeds, ?_,
    h2, h3, h4, ?_⟩
  · intro h0
    have hl := shuffleArray_length rnd seeds
    rw [← h1, h0] at hl
    exact hne (List.length_eq_zero.mp hl.symm)
  · intro other
    obtain ⟨g1, g2, g3, g4, -, -⟩ := initGame_fields seeds rnd other
    exact ⟨g1.trans h1.symm, g2.trans h2.symm, g3.trans h3.symm, g4.trans h4.symm⟩

theorem initGame_fresh_session_witness :
    originalStimuli ≠ [] ∧
    (initGame originalStimuli alternating finishedGame).stimuli.map (fun st => st.word)
      = ["Banana", "Car", "Dog", "Apple"] ∧
    (initGame originalStimuli alternating finishedGame).stimuli.Perm originalStimuli ∧
    finishedGame.currentIndex = 4 ∧ finishedGame.score = 2 ∧
    (initGame originalStimuli alternating finishedGame).currentIndex = 0 ∧
    (initGame originalStimuli alternating finishedGame).score = 0 ∧
    (initGame originalStimuli alternating finishedGame).responses = [] := by
  obtain ⟨h1, -, -, h4, h5, h6, -⟩ :=
    initGame_fresh_session originalStimuli alternating finishedGame (by decide)
  exact ⟨by decide, by decide, h1, by decide, by decide, h4, h5, h6⟩

/-- C5: in a complete state `handleResponse` returns the state it was given:
no variable, no storage entry, no DOM node and no timer changes. -/
theorem handleResponse_complete_noop (s : State) (choice : Category)
    (h : s.currentIndex ≥ s.stimuli.length) :
    handleResponse choice s = s ∧
    (handleResponse choice s).score = s.score ∧
    (handleResponse choice s).responses = s.responses ∧
    (handleResponse choice s).currentIndex = s.currentIndex ∧
    (handleResponse choice s).stimuli = s.stimuli ∧
    (handleResponse choice s).gameData = s.gameData ∧
    (handleResponse choice s).pendingAdvance = s.pendingAdvance := by
  rw [handleResponse_of_ge choice s h]
  simp

theorem handleResponse_complete_noop_witness :
    finishedGame.currentIndex ≥ finishedGame.stimuli.length ∧
    handleResponse .left finishedGame = finishedGame :=
  ⟨by decide, (handleResponse_complete_noop finishedGame .left (by decide)).1⟩

/-! ## Invariants of the reachable states -/

/-- A property kept by every enabled event is kept by every run. -/
theorem run_preserves (seeds : List Stimulus) (P : State → Prop)
    (hstep : ∀ s e s1, P s → step seeds s e = some s1 → P s1) :
    ∀ (evs : List Event) (s s1 : State), P s → run seeds s evs = some s1 → P s1
  | [], s, s1, hP, h => by
    simp only [run, Option.some.injEq] at h
    exact h ▸ hP
  | e :: es, s, s1, hP, h => by
    unfold run at h
    split at h
    · next s2 hs => exact run_preserves seeds P hstep es s2 s1 (hstep s e s2 hP hs) h
    · exact absurd h (by simp)

/-- Invariant rule: a property established by `initGame` and kept by
`handleResponse` and by an enabled delayed advance holds in every reachable
state. -/
theorem reachable_induction (seeds : List Stimulus) (P : State → Prop)
    (hinit : ∀ rnd s, P (initGame seeds rnd s))
    (hanswer : ∀ c s, P s → P (handleResponse c s))
    (hadvance : ∀ s, P s → 0 < s.pendingAdvance →
      P (fireAdvance s))
    (s : State) (hs : Reachable seeds s) : P s := by
  obtain ⟨dom, gameData, rnd, evs, hrun⟩ := hs
  refine run_preserves seeds P ?_ evs _ s (hinit rnd _) hrun
  intro s0 e s1 hP hstep
  cases e with
  | initGame rnd1 =>
    simp only [step, Option.some.injEq] at hstep
    exact hstep ▸ hinit rnd1 s0
  | handleResponse c =>
    simp only [step, Option.some.injEq] at hstep
    exact hstep ▸ hanswer c s0 hP
  | delayedAdvance =>
    simp only [step] at hstep
    split at hstep
    · next hpos =>
      simp only [Option.some.injEq] at hstep
      exact hstep ▸ hadvance s0 hP hpos
    · exact absurd hstep (by simp)

/-- C7: in every reachable state `score` is the number of entries of
`responses` whose `isCorrect` field is true. -/
theorem score_counts_correct (seeds : List Stimulus) (s : State)
    (hs : Reachable seeds s) :
    s.score = s.responses.countP (fun r => r.isCorrect) := by
  refine reachable_induction seeds
    (fun s => s.score = s.responses.countP (fun r => r.isCorrect)) ?_ ?_ ?_ s hs
  · intro rnd s0
    obtain ⟨-, -, h3, h4, -, -⟩ := initGame_fields seeds rnd s0
    simp only [h3, h4, List.countP_nil]
  · intro c s0 hP
    by_cases h : s0.currentIndex < s0.stimuli.length
    · rw [handleResponse_of_lt c s0 h]
      simp only [List.countP_append, List.countP_cons, List.countP_nil, decide_eq_true_eq]
      simp only at hP
      omega
    · rw [handleResponse_of_ge c s0 (Nat.le_of_not_lt h)]
      exact hP
  · intro s0 hP _
    obtain ⟨-, -, h3, h4, -, -⟩ := fireAdvance_fields s0
    simp only [h3, h4]
    exact hP

theorem score_counts_correct_witness :
    Reachable originalStimuli (handleResponse .left freshGame) ∧
    (handleResponse .left freshGame).score =
      (handleResponse .left freshGame).responses.countP (fun r => r.isCorrect) :=
  ⟨⟨blankDom, none, sampleDraws, [.handleResponse .left], rfl⟩,
    score_counts_correct originalStimuli (handleResponse .left freshGame)
      ⟨blankDom, none, sampleDraws, [.handleResponse .left], rfl⟩⟩

/-- C8 as stated fails: after the first answer on the freshly loaded page, a
correct one, `score` is 1 while `currentIndex` is still 0. -/
theorem score_le_position_counterexample :
    run originalStimuli (initGame originalStimuli sampleDraws (pageLoad blankDom none))
      [.handleResponse .left] = some (handleResponse .left freshGame) ∧
    (handleResponse .left freshGame).score = 1 ∧
    (handleResponse .left freshGame).currentIndex = 0 ∧
    ¬ (handleResponse .left freshGame).score ≤ (handleResponse .left freshGame).currentIndex := by
  refine ⟨rfl, ?_, ?_, ?_⟩ <;> decide

/-- C8 amended: in every reachable state `score` is at most `currentIndex`
plus the number of delayed advances still scheduled, and at most the number
of entries of `responses`; so `score ≤ currentIndex` whenever no delayed
advance is scheduled. -/
theorem score_le_position_plus_pending (seeds : List Stimulus) (s : State)
    (hs : Reachable seeds s) :
    0 ≤ s.score ∧
    s.score ≤ s.currentIndex + s.pendingAdvance ∧
    s.score ≤ s.responses.length ∧
    (s.pendingAdvance = 0 → s.score ≤ s.currentIndex) := by
  have key : s.score ≤ s.currentIndex + s.pendingAdvance ∧ s.score ≤ s.responses.length := by
    refine reachable_induction seeds
      (fun s => s.score ≤ s.currentIndex + s.pendingAdvance ∧ s.score ≤ s.responses.length)
      ?_ ?_ ?_ s hs
    · intro rnd s0
      obtain ⟨-, -, h3, -, -, -⟩ := initGame_fields seeds rnd s0
      simp only [h3]
      exact ⟨Nat.zero_le _, Nat.zero_le _⟩
    · intro c s0 hP
      by_cases h : s0.currentIndex < s0.stimuli.length
      · rw [handleResponse_of_lt c s0 h]
        simp only [List.length_append, List.length_singleton]
        simp only at hP
        constructor <;> split <;> omega
      · rw [handleResponse_of_ge c s0 (Nat.le_of_not_lt h)]
        exact hP
    · intro s0 hP hpos
      obtain ⟨-, h2, h3, h4, -, h6⟩ := fireAdvance_fields s0
      simp only [h2, h3, h4, h6]
      simp only at hP
      omega
  exact ⟨Nat.zero_le _, key.1, key.2, fun h0 => by have := key.1; omega⟩

theorem score_le_position_plus_pending_witness :
    Reachable originalStimuli (handleResponse .right (handleResponse .left freshGame)) ∧
    (handleResponse .right (handleResponse .left freshGame)).score ≤
      (handleResponse .right (handleResponse .left freshGame)).currentIndex +
        (handleResponse .right (handleResponse .left freshGame)).pendingAdvance :=
  ⟨⟨blankDom, none, sampleDraws, [.handleResponse .left, .handleResponse .right], rfl⟩,
    (score_le_position_plus_pending originalStimuli
      (handleResponse .right (handleResponse .left freshGame))
      ⟨blankDom, none, sampleDraws,
        [.handleResponse .left, .handleResponse .right], rfl⟩).2.1⟩

/-! ## Runs in which answers wait for the callback -/

/-- C9 as stated fails: play three rounds one at a time, answer the fourth
word twice before its callback runs, then let both callbacks run;
`currentIndex` is 5 with 4 stimuli, and the game-over message reads 5 out of 4. -/
theorem position_bound_counterexample :
    (run originalStimuli (initGame originalStimuli sampleDraws (pageLoad blankDom none))
      (playEvents [.left, .right, .left] ++
        [.handleResponse .right, .handleResponse .right,
         .delayedAdvance, .delayedAdvance])).map
      (fun s => (s.currentIndex, s.stimuli.length, s.score, s.dom.gameOverMsg))
      = some (5, 4, 5, some (5, 4)) := by
  decide

/-- A property kept by `initGame`, by an answer that arrives while no delayed
advance is scheduled, and by an enabled delayed advance, is kept by every run
whose answers are serialized. -/
theorem serialized_run_preserves (seeds : List Stimulus) (P : State → Prop)
    (hinit : ∀ rnd s, P s → P (initGame seeds rnd s))
    (hanswer : ∀ c s, P s → s.pendingAdvance = 0 → P (handleResponse c s))
    (hadvance : ∀ s, P s → 0 < s.pendingAdvance →
      P (fireAdvance s)) :
    ∀ (evs : List Event) (s s1 : State), P s → answersSerialized seeds s evs = true →
      run seeds s evs = some s1 → P s1
  | [], s, s1, hP, _, h => by
    simp only [run, Option.some.injEq] at h
    exact h ▸ hP
  | e :: es, s, s1, hP, hser, h => by
    unfold run at h
    unfold answersSerialized at hser
    rw [Bool.and_eq_true] at hser
    obtain ⟨hnow, hlater⟩ := hser
    split at h
    · next s2 hs =>
      rw [hs] at hlater
      refine serialized_run_preserves seeds P hinit hanswer hadvance es s2 s1 ?_ hlater h
      cases e with
      | initGame rnd1 =>
        simp only [step, Option.some.injEq] at hs
        exact hs ▸ hinit rnd1 s hP
      | handleResponse c =>
        simp only [step, Option.some.injEq] at hs
        simp only [decide_eq_true_eq] at hnow
        exact hs ▸ hanswer c s hP hnow
      | delayedAdvance =>
        simp only [step] at hs
        split at hs
        · next hpos =>
          simp only [Option.some.injEq] at hs
          exact hs ▸ hadvance s hP hpos
        · exact absurd hs (by simp)
    · exact absurd h (by simp)

/-- C9 amended: from page load, in every run whose answers each arrive while
no delayed advance is scheduled, `0 ≤ currentIndex ≤ stimuli.length` holds, and
the guard of `handleResponse` fires exactly when `currentIndex` equals
`stimuli.length`. -/
theorem position_bounded_when_serialized (seeds : List Stimulus) (dom : Dom)
    (gameData : Option (List Response)) (rnd : Nat → Int) (evs : List Event) (s : State)
    (hser : answersSerialized seeds (initGame seeds rnd (pageLoad dom gameData)) evs = true)
    (hrun : run seeds (initGame seeds rnd (pageLoad dom gameData)) evs = some s) :
    0 ≤ s.currentIndex ∧ s.currentIndex ≤ s.stimuli.length ∧
    (isComplete s = true ↔ s.currentIndex = s.stimuli.length) := by
  have key : s.stimuli.length = seeds.length ∧
      s.currentIndex + s.pendingAdvance ≤ seeds.length := by
    refine serialized_run_preserves seeds
      (fun s => s.stimuli.length = seeds.length ∧
        s.currentIndex + s.pendingAdvance ≤ seeds.length) ?_ ?_ ?_ evs _ s ?_ hser hrun
    · intro rnd1 s0 hP
      obtain ⟨h1, h2, -, -, -, h6⟩ := initGame_fields seeds rnd1 s0
      obtain ⟨-, hP2⟩ := hP
      exact ⟨by rw [h1, shuffleArray_length], by rw [h2, h6]; omega⟩
    · intro c s0 hP h0
      by_cases h : s0.currentIndex < s0.stimuli.length
      · rw [handleResponse_of_lt c s0 h]
        simp only at hP ⊢
        omega
      · rw [handleResponse_of_ge c s0 (Nat.le_of_not_lt h)]
        exact hP
    · intro s0 hP hpos
      obtain ⟨h1, h2, -, -, -, h6⟩ := fireAdvance_fields s0
      simp only [h1, h2, h6]
      simp only at hP
      omega
    · obtain ⟨h1, h2, -, -, -, h6⟩ := initGame_fields seeds rnd (pageLoad dom gameData)
      exact ⟨by rw [h1, shuffleArray_length], by rw [h2, h6]; simp [pageLoad]⟩
  have hle : s.currentIndex ≤ s.stimuli.length := by omega
  refine ⟨Nat.zero_le _, hle, ?_⟩
  simp only [isComplete, decide_eq_true_eq]
  omega

theorem position_bounded_when_serialized_witness :
    answersSerialized originalStimuli
      (initGame originalStimuli sampleDraws (pageLoad blankDom none))
      (playEvents sampleChoices) = true ∧
    run originalStimuli (initGame originalStimuli sampleDraws (pageLoad blankDom none))
      (playEvents sampleChoices) = some finishedGame ∧
    finishedGame.currentIndex ≤ finishedGame.stimuli.length ∧
    (isComplete finishedGame = true ↔
      finishedGame.currentIndex = finishedGame.stimuli.length) :=
  ⟨by decide, by decide,
    (position_bounded_when_serialized originalStimuli blankDom none sampleDraws
      (playEvents sampleChoices) finishedGame (by decide) (by decide)).2⟩

/-! ## Positions of the logged answers -/

/-- C6 as stated fails: a second choice that arrives before the first
answer's delayed advance has run is scored and logged against the same
`currentIndex`; both entries of `responses` were recorded at position 0. -/
theorem serialized_input_counterexample :
    (handleResponse .left freshGame).pendingAdvance = 1 ∧
    (handleResponse .left freshGame).currentIndex = 0 ∧
    (handleResponse .left (handleResponse .left freshGame)).score = 2 ∧
    (handleResponse .left (handleResponse .left freshGame)).responses =
      [⟨"Apple", .left, true⟩, ⟨"Apple", .left, true⟩] ∧
    recordedAt originalStimuli freshGame []
      [.handleResponse .left, .handleResponse .left] = [0, 0] ∧
    ¬ (recordedAt originalStimuli freshGame []
      [.handleResponse .left, .handleResponse .left]).Nodup := by
  decide

/-- The bookkeeping list has one position per entry of `responses`. -/
theorem recordedAt_length (seeds : List Stimulus) :
    ∀ (evs : List Event) (s : State) (acc : List Nat) (s1 : State),
      acc.length = s.responses.length → run seeds s evs = some s1 →
      (recordedAt seeds s acc evs).length = s1.responses.length
  | [], s, acc, s1, hacc, h => by
    simp only [run, Option.some.injEq] at h
    simpa [recordedAt, ← h] using hacc
  | e :: es, s, acc, s1, hacc, h => by
    unfold run at h
    unfold recordedAt
    split at h
    · next s2 hs =>
      simp only [hs]
      cases e with
      | initGame rnd1 =>
        simp only [step, Option.some.injEq] at hs
        refine recordedAt_length seeds es s2 [] s1 ?_ h
        rw [← hs, (initGame_fields seeds rnd1 s).2.2.2.1]
        rfl
      | handleResponse c =>
        simp only [step, Option.some.injEq] at hs
        refine recordedAt_length seeds es s2 _ s1 ?_ h
        by_cases hlt : s.currentIndex < s.stimuli.length
        · rw [← hs, handleResponse_of_lt c s hlt]
          simp [hlt, hacc]
        · rw [← hs, handleResponse_of_ge c s (Nat.le_of_not_lt hlt)]
          simp [hlt, hacc]
      | delayedAdvance =>
        simp only [step] at hs
        split at hs
        · simp only [Option.some.injEq] at hs
          refine recordedAt_length seeds es s2 acc s1 ?_ h
          rw [← hs, (fireAdvance_fields _).2.2.2.1]
          exact hacc
        · exact absurd hs (by simp)
    · exact absurd h (by simp)

/-- When answers are serialized, the recorded positions stay distinct and
below the position the scheduled advances lead to. -/
theorem recordedAt_nodup_aux (seeds : List Stimulus) :
    ∀ (evs : List Event) (s : State) (acc : List Nat),
      acc.Nodup → (∀ p ∈ acc, p < s.currentIndex + s.pendingAdvance) →
      answersSerialized seeds s evs = true →
      (recordedAt seeds s acc evs).Nodup
  | [], _, acc, hnd, _, _ => by simpa [recordedAt] using hnd
  | e :: es, s, acc, hnd, hlt, hser => by
    unfold answersSerialized at hser
    rw [Bool.and_eq_true] at hser
    obtain ⟨hnow, hlater⟩ := hser
    unfold recordedAt
    cases e with
    | initGame rnd1 =>
      simp only [step] at hlater ⊢
      exact recordedAt_nodup_aux seeds es _ [] List.nodup_nil (by simp) hlater
    | handleResponse c =>
      simp only [step] at hlater ⊢
      simp only [decide_eq_true_eq] at hnow
      by_cases hin : s.currentIndex < s.stimuli.length
      · simp only [hin, if_true]
        refine recordedAt_nodup_aux seeds es _ _ ?_ ?_ hlater
        · rw [List.nodup_append]
          refine ⟨hnd, List.nodup_singleton _, ?_⟩
          intro a ha hb
          have h1 := hlt a ha
          rw [List.mem_singleton] at hb
          omega
        · intro p hp
          rw [handleResponse_of_lt c s hin]
          rw [List.mem_append, List.mem_singleton] at hp
          rcases hp with hp | hp
          · have h1 := hlt p hp
            simp only
            omega
          · simp only
            omega
      · simp only [hin, if_false]
        refine recordedAt_nodup_aux seeds es _ _ hnd ?_ hlater
        rw [handleResponse_of_ge c s (Nat.le_of_not_lt hin)]
        exact hlt
    | delayedAdvance =>
      by_cases hpos : 0 < s.pendingAdvance
      · simp only [step, hpos, if_true] at hlater ⊢
        refine recordedAt_nodup_aux seeds es _ _ hnd ?_ hlater
        intro p hp
        have h1 := hlt p hp
        rw [(fireAdvance_fields _).2.1, (fireAdvance_fields _).2.2.2.2.2]
        omega
      · simp only [step, hpos, if_false]
        exact hnd

/-- C6 amended: from page load, in every event sequence in which each
`handleResponse` arrives while no delayed advance is scheduled, no two
entries of the current `responses` array are recorded for the same
`currentIndex`; the recorded positions are one per entry of `responses`. -/
theorem serialized_answers_distinct_positions (seeds : List Stimulus) (dom : Dom)
    (gameData : Option (List Response)) (rnd : Nat → Int) (evs : List Event)
    (hser : answersSerialized seeds (initGame seeds rnd (pageLoad dom gameData)) evs = true) :
    (recordedAt seeds (initGame seeds rnd (pageLoad dom gameData)) [] evs).Nodup ∧
    ∀ s, run seeds (initGame seeds rnd (pageLoad dom gameData)) evs = some s →
      (recordedAt seeds (initGame seeds rnd (pageLoad dom gameData)) [] evs).length =
        s.responses.length := by
  refine ⟨recordedAt_nodup_aux seeds evs _ [] List.nodup_nil (by simp) hser, ?_⟩
  intro s hrun
  refine recordedAt_length seeds evs _ [] s ?_ hrun
  rw [(initGame_fields seeds rnd _).2.2.2.1]
  rfl

theorem serialized_answers_distinct_positions_witness :
    answersSerialized originalStimuli
      (initGame originalStimuli sampleDraws (pageLoad blankDom none))
      (playEvents sampleChoices ++ [.initGame alternating, .handleResponse .left]) = true ∧
    (recordedAt originalStimuli
      (initGame originalStimuli sampleDraws (pageLoad blankDom none)) []
      (playEvents sampleChoices ++ [.initGame alternating, .handleResponse .left])).Nodup := by
  have hser : answersSerialized originalStimuli
      (initGame originalStimuli sampleDraws (pageLoad blankDom none))
      (playEvents sampleChoices ++ [.initGame alternating, .handleResponse .left]) = true := by
    decide
  exact ⟨hser, (serialized_answers_distinct_positions _ _ _ _ _ hser).1⟩

/-! ## A whole session played one answer at a time -/

/-- An answer to a remaining stimulus followed by its callback. -/
theorem run_round (seeds : List Stimulus) (c : Category) (s : State) (rest : List Event)
    (h : s.currentIndex < s.stimuli.length) :
    run seeds s (.handleResponse c :: .delayedAdvance :: rest) =
      run seeds (fireAdvance (handleResponse c s)) rest := by
  have hp : (handleResponse c s).pendingAdvance = s.pendingAdvance + 1 := by
    rw [handleResponse_of_lt c s h]
  simp [run, step, hp]

/-- The state after one round: an answer to a remaining stimulus and its callback. -/
theorem round_fields (c : Category) (s : State) (h : s.currentIndex < s.stimuli.length) :
    (fireAdvance (handleResponse c s)).stimuli = s.stimuli ∧
    (fireAdvance (handleResponse c s)).currentIndex = s.currentIndex + 1 ∧
    (fireAdvance (handleResponse c s)).score
      = s.score + (if c = (s.stimuli.get ⟨s.currentIndex, h⟩).correct then 1 else 0) ∧
    (fireAdvance (handleResponse c s)).responses
      = s.responses ++ [⟨(s.stimuli.get ⟨s.currentIndex, h⟩).word, c,
          decide (c = (s.stimuli.get ⟨s.currentIndex, h⟩).correct)⟩] ∧
    (fireAdvance (handleResponse c s)).pendingAdvance = s.pendingAdvance ∧
    (s.stimuli.length ≤ s.currentIndex + 1 →
      (fireAdvance (handleResponse c s)).dom.stimulusText = .gameOver ∧
      (fireAdvance (handleResponse c s)).dom.gameOverShown = true ∧
      (fireAdvance (handleResponse c s)).dom.restartShown = true ∧
      (fireAdvance (handleResponse c s)).dom.scoreText
        = .final (fireAdvance (handleResponse c s)).score s.stimuli.length ∧
      (fireAdvance (handleResponse c s)).dom.gameOverMsg
        = some ((fireAdvance (handleResponse c s)).score, s.stimuli.length)) := by
  obtain ⟨f1, f2, f3, f4, -, f6⟩ := fireAdvance_fields (handleResponse c s)
  have hs : (handleResponse c s).stimuli = s.stimuli := by
    rw [handleResponse_of_lt c s h]
  have hi : (handleResponse c s).currentIndex = s.currentIndex := by
    rw [handleResponse_of_lt c s h]
  refine ⟨?_, ?_, ?_, ?_, ?_, ?_⟩
  · rw [f1, hs]
  · rw [f2, hi]
  · rw [f3, handleResponse_of_lt c s h]
  · rw [f4, handleResponse_of_lt c s h]
  · rw [f6, handleResponse_of_lt c s h]
    simp
  · intro hend
    have hE := fireAdvance_endGame (handleResponse c s) (by rw [hs, hi]; exact hend)
    rw [hs] at hE
    rw [f3]
    exact hE

theorem zipWith_left_only {α β γ : Type} (g : α → γ) :
    ∀ (l : List α) (l1 : List β), l.length ≤ l1.length →
      List.zipWith (fun x _ => g x) l l1 = l.map g
  | [], _, _ => by simp
  | _ :: _, [], h => by simp at h
  | a :: l, b :: l1, h => by
    simp only [List.zipWith_cons_cons, List.map_cons, List.cons.injEq, true_and]
    exact zipWith_left_only g l l1 (by simpa using h)

/-- Rounds played one at a time from position `currentIndex`, as long as
stimuli remain. -/
theorem play_rounds (seeds : List Stimulus) :
    ∀ (cs : List Category) (s : State), s.currentIndex + cs.length ≤ s.stimuli.length →
      ∃ s1, run seeds s (playEvents cs) = some s1 ∧
        s1.stimuli = s.stimuli ∧
        s1.currentIndex = s.currentIndex + cs.length ∧
        s1.responses = s.responses ++
          List.zipWith (fun st c => (⟨st.word, c, decide (c = st.correct)⟩ : Response))
            (s.stimuli.drop s.currentIndex) cs ∧
        s1.score = s.score +
          (List.zipWith (fun st c => decide (c = st.correct))
            (s.stimuli.drop s.currentIndex) cs).count true ∧
        s1.pendingAdvance = s.pendingAdvance ∧
        (cs ≠ [] → s.currentIndex + cs.length = s.stimuli.length →
          s1.dom.stimulusText = .gameOver ∧
          s1.dom.gameOverShown = true ∧
          s1.dom.restartShown = true ∧
          s1.dom.scoreText = .final s1.score s1.stimuli.length ∧
          s1.dom.gameOverMsg = some (s1.score, s1.stimuli.length))
  | [], s, _ => ⟨s, by simp [playEvents, run]⟩
  | c :: cs, s, h => by
    have hlt : s.currentIndex < s.stimuli.length := by
      simp only [List.length_cons] at h; omega
    obtain ⟨f1, f2, f3, f4, f6, f7⟩ := round_fields c s hlt
    obtain ⟨s1, hrun, g1, g2, g3, g4, g5, g6⟩ := play_rounds seeds cs
      (fireAdvance (handleResponse c s))
      (by rw [f1, f2]; simp only [List.length_cons] at h; omega)
    refine ⟨s1, ?_, ?_, ?_, ?_, ?_, ?_, ?_⟩
    · rw [playEvents, run_round seeds c s _ hlt]; exact hrun
    · rw [g1, f1]
    · rw [g2, f2, List.length_cons]; omega
    · rw [g3, f1, f2, f4, List.drop_eq_getElem_cons hlt, List.zipWith_cons_cons,
        List.append_assoc]
      rfl
    · rw [g4, f1, f2, f3, List.drop_eq_getElem_cons hlt, List.zipWith_cons_cons,
        List.count_cons]
      by_cases hc : c = (s.stimuli[s.currentIndex]).correct <;> simp [hc]
      omega
    · rw [g5, f6]
    · intro _ hfull
      by_cases hcs : cs = []
      · subst hcs
        simp only [playEvents, run, Option.some.injEq] at hrun
        subst hrun
        rw [f1]
        exact f7 (by simp only [List.length_cons, List.length_nil] at hfull; omega)
      · exact g6 hcs (by rw [f1, f2]; simp only [List.length_cons] at hfull; omega)

/-- C3: for a non-empty seed list of length `n` and `n` choices played one at
a time (each `handleResponse` followed by its delayed advance), every answer
and callback is enabled; after `k < n` rounds the session is not complete;
after `n` rounds `currentIndex = stimuli.length`, `endGame` has run,
`responses` has `n` entries, one per stimulus of the shuffled order in
presentation order, and the final score shown is `(score, n)` with `score` the
number of matching choices. -/
theorem full_session (seeds : List Stimulus) (rnd : Nat → Int) (prior : State)
    (choices : List Category) (hne : seeds ≠ []) (hlen : choices.length = seeds.length) :
    (∀ k, k < seeds.length →
      ∃ sk, run seeds (initGame seeds rnd prior) (playEvents (choices.take k)) = some sk ∧
        sk.responses.length = k ∧ sk.currentIndex = k ∧ isComplete sk = false) ∧
    ∃ sf, run seeds (initGame seeds rnd prior) (playEvents choices) = some sf ∧
      isComplete sf = true ∧
      sf.currentIndex = sf.stimuli.length ∧
      sf.stimuli = (initGame seeds rnd prior).stimuli ∧
      sf.responses.length = seeds.length ∧
      sf.responses =
        List.zipWith (fun st c => (⟨st.word, c, decide (c = st.correct)⟩ : Response))
          sf.stimuli choices ∧
      sf.responses.map (fun r => r.word) = sf.stimuli.map (fun st => st.word) ∧
      sf.score =
        (List.zipWith (fun st c => decide (c = st.correct)) sf.stimuli choices).count true ∧
      sf.dom.stimulusText = .gameOver ∧
      sf.dom.gameOverShown = true ∧
      sf.dom.scoreText = .final sf.score seeds.length ∧
      sf.dom.gameOverMsg = some (sf.score, seeds.length) := by
  obtain ⟨i1, i2, i3, i4, -, -⟩ := initGame_fields seeds rnd prior
  have hn : (initGame seeds rnd prior).stimuli.length = seeds.length := by
    rw [i1, shuffleArray_length]
  have hpos : 0 < seeds.length := List.length_pos.mpr hne
  constructor
  · intro k hk
    have hk1 : (choices.take k).length = k := by
      rw [List.length_take]; omega
    obtain ⟨sk, hrun, g1, g2, g3, -, -, -⟩ := play_rounds seeds (choices.take k)
      (initGame seeds rnd prior) (by rw [i2, hn, hk1]; omega)
    refine ⟨sk, hrun, ?_, ?_, ?_⟩
    · rw [g3, i4, i2, List.nil_append, List.drop_zero, List.length_zipWith, hn, hk1]
      exact Nat.min_eq_right (Nat.le_of_lt hk)
    · rw [g2, i2, hk1, Nat.zero_add]
    · simp only [isComplete, decide_eq_false_iff_not, ge_iff_le, Nat.not_le]
      rw [g2, g1, i2, hk1, hn]
      omega
  · obtain ⟨sf, hrun, g1, g2, g3, g4, -, g6⟩ := play_rounds seeds choices
      (initGame seeds rnd prior) (by rw [i2, hn, hlen]; omega)
    have hcs : choices ≠ [] := by
      intro h0
      rw [h0] at hlen
      simp only [List.length_nil] at hlen
      omega
    obtain ⟨d1, d2, -, d4, d5⟩ := g6 hcs (by rw [i2, hn, hlen]; omega)
    have hfl : sf.stimuli.length = seeds.length := by rw [g1, hn]
    have hidx : sf.currentIndex = sf.stimuli.length := by
      rw [g2, i2, hlen, hfl]; omega
    have hresp : sf.responses =
        List.zipWith (fun st c => (⟨st.word, c, decide (c = st.correct)⟩ : Response))
          sf.stimuli choices := by
      rw [g3, i4, i2, List.nil_append, List.drop_zero, g1]
    refine ⟨sf, hrun, ?_, hidx, g1, ?_, hresp, ?_, ?_, d1, d2, ?_, ?_⟩
    · simp only [isComplete, decide_eq_true_eq]
      omega
    · rw [hresp, List.length_zipWith, hfl, hlen]
      exact Nat.min_self _
    · rw [hresp, List.map_zipWith]
      exact zipWith_left_only (fun st => st.word) sf.stimuli choices (by rw [hfl, hlen])
    · rw [g4, i3, i2, Nat.zero_add, List.drop_zero, g1]
    · rw [d4, hfl]
    · rw [d5, hfl]

theorem full_session_witness :
    originalStimuli ≠ [] ∧ sampleChoices.length = originalStimuli.length ∧
    ∃ sf, run originalStimuli freshGame (playEvents sampleChoices) = some sf ∧
      isComplete sf = true ∧
      sf.responses.map (fun r => r.word) = ["Apple", "Dog", "Car", "Banana"] ∧
      sf.score = 2 ∧
      sf.dom.gameOverMsg = some (sf.score, 4) := by
  refine ⟨by decide, by decide, ?_⟩
  obtain ⟨sf, hrun, hc, -, hst, -, -, hw, hsc, -, -, -, hmsg⟩ :=
    (full_session originalStimuli sampleDraws (pageLoad blankDom none) sampleChoices
      (by decide) (by decide)).2
  refine ⟨sf, hrun, hc, ?_, ?_, hmsg⟩
  · rw [hw, hst]
    decide
  · rw [hsc, hst]
    decide

end BustingBias
